import Mathlib

/-!
Verification development for the spotifAI song-generation pipeline
(`src/spotifAI.py`).  Strings are modelled as `List Char`, Python's
unbounded integers as `Int`/`Nat`, temporal offsets as `Rat`, and the
process-wide random source as an explicit stream of draws.  External
collaborators (the OpenAI generation service and the music21 notation
library) are modelled only through the data they hand to or receive from
the repository's own code, as delimited by the spec.
-/

namespace SpotifAI

/-! ## Python string primitives -/

/-- The whitespace characters stripped by Python's `str.strip`. -/
def pyWs (c : Char) : Bool :=
  c == ' ' || c == '\t' || c == '\n' || c == '\r' || c == '\x0b' || c == '\x0c'

/-- Drop leading whitespace (left half of `str.strip`). -/
def stripL (l : List Char) : List Char := l.dropWhile pyWs

/-- Drop trailing whitespace (right half of `str.strip`). -/
def stripR : List Char → List Char
  | [] => []
  | c :: t =>
    match stripR t with
    | [] => if pyWs c then [] else [c]
    | d :: r => c :: d :: r

/-- Python `str.strip`: drop whitespace at both ends. -/
def pyStrip (l : List Char) : List Char := stripR (stripL l)

/-- Python `str.split(sep)` for a one-character separator. -/
def splitOnChar (c : Char) : List Char → List (List Char)
  | [] => [[]]
  | d :: t =>
    if d == c then [] :: splitOnChar c t
    else
      match splitOnChar c t with
      | [] => [[d]]
      | h :: r => (d :: h) :: r

/-- Python `sep.join(lines)` for a one-character separator. -/
def joinChar (c : Char) : List (List Char) → List Char
  | [] => []
  | l :: ls =>
    match ls with
    | [] => l
    | _ :: _ => l ++ c :: joinChar c ls

/-- `startsList p l` holds when `p` is an initial segment of `l`
(Python `str.startswith`). -/
def startsList : List Char → List Char → Bool
  | [], _ => true
  | _ :: _, [] => false
  | a :: p, b :: l => a == b && startsList p l

/-- `subOf p l`: the pattern `p` occurs as a contiguous substring of `l`
(Python `in` on strings). -/
def subOf (p : List Char) : List Char → Bool
  | [] => startsList p []
  | c :: t => startsList p (c :: t) || subOf p t

/-- `hasPair a b l`: some adjacent pair of characters of `l` is `a, b`
(occurrence of the two-character substring `[a, b]`). -/
def hasPair (a b : Char) : List Char → Bool
  | x :: y :: t => (a == x && b == y) || hasPair a b (y :: t)
  | _ => false

/-- Python `str.replace('_', 'b')` (the accidental remapping of
`clean_abc`, line 135). -/
def underscoreToB (l : List Char) : List Char :=
  l.map fun c => if c == '_' then 'b' else c

/-- Python `str.replace(':|', '|')` (first global repeat-shorthand
replacement of `clean_abc`, line 151): leftmost, non-overlapping, and the
replacement text is not rescanned. -/
def replColonBar : List Char → List Char
  | ':' :: '|' :: t => '|' :: replColonBar t
  | c :: t => c :: replColonBar t
  | [] => []

/-- Python `str.replace('|:', '|')` (second global replacement of
`clean_abc`, line 151). -/
def replBarColon : List Char → List Char
  | '|' :: ':' :: t => '|' :: replBarColon t
  | c :: t => c :: replBarColon t
  | [] => []

/-! ## The Notation Sanitizer: `clean_abc` (src/spotifAI.py lines 134-152) -/

/-- The header prefixes of line 140: `M: L: K: X: T: V: %%`. -/
def headerPrefixes : List (List Char) :=
  [['M', ':'], ['L', ':'], ['K', ':'], ['X', ':'], ['T', ':'], ['V', ':'], ['%', '%']]

/-- `line.startswith(('M:', 'L:', 'K:', 'X:', 'T:', 'V:', '%%'))`. -/
def isHeaderLine (l : List Char) : Bool :=
  headerPrefixes.any fun p => startsList p l

/-- Force a bar-containing line to start and end with `'|'`
(lines 144-147). -/
def barFix (l : List Char) : List Char :=
  let l1 := if startsList ['|'] l then l else '|' :: l
  if l1.getLast? == some '|' then l1 else l1 ++ ['|']

/-- The per-line body of the `clean_abc` loop (lines 138-148). -/
def cleanLine (l : List Char) : List Char :=
  let s := pyStrip l
  if isHeaderLine s then s
  else if s.contains '|' then barFix s
  else s

/-- The Notation Sanitizer `clean_abc` (lines 134-152): underscore
remapping, outer strip, per-line header/bar handling, join, and the two
global repeat-shorthand replacements. -/
def clean_abc (s : List Char) : List Char :=
  replBarColon (replColonBar
    (joinChar '\n' ((splitOnChar '\n' (pyStrip (underscoreToB s))).map cleanLine)))

/-! ## Substring bookkeeping lemmas -/

theorem beqComm (a b : Char) : (a == b) = (b == a) := by
  by_cases h : a = b
  · subst h; rfl
  · rw [beq_eq_false_iff_ne.mpr h, beq_eq_false_iff_ne.mpr (Ne.symm h)]

theorem hasPair_tail {a b c : Char} {l : List Char} (h : hasPair a b (c :: l) = false) :
    hasPair a b l = false := by
  cases l with
  | nil => rfl
  | cons d t => simp [hasPair] at h; simp [hasPair, h.2]

theorem subOf_pair (a b : Char) (l : List Char) : subOf [a, b] l = hasPair a b l := by
  induction l with
  | nil => rfl
  | cons c t ih =>
    cases t with
    | nil => simp [subOf, startsList, hasPair]
    | cons d t' =>
      simp only [subOf, startsList, hasPair] at ih ⊢
      rw [ih]
      simp [Bool.and_assoc]

theorem hasPair_append (a b : Char) (x y : List Char) :
    hasPair a b (x ++ y) =
      (hasPair a b x || hasPair a b y ||
        (x.getLast? == some a && y.head? == some b)) := by
  induction x with
  | nil => simp [hasPair]
  | cons c x ih =>
    cases x with
    | nil =>
      cases y with
      | nil => simp [hasPair]
      | cons d t =>
        have e1 : (some c == some a) = (a == c) := by
          rw [show (some c == some a) = (c == a) from rfl, beqComm]
        have e2 : (some d == some b) = (b == d) := by
          rw [show (some d == some b) = (d == b) from rfl, beqComm]
        simp only [List.singleton_append, hasPair, List.getLast?_singleton,
          List.head?_cons, e1, e2]
        cases (a == c && b == d) <;> cases hasPair a b (d :: t) <;> rfl
    | cons e x' =>
      simp only [List.cons_append] at ih ⊢
      simp only [hasPair, ih, List.getLast?_cons_cons]
      cases (a == c && b == e) <;> simp [Bool.or_assoc]

theorem hasPair_infix_false {a b : Char} {l u m v : List Char}
    (hl : l = u ++ m ++ v) (h : hasPair a b l = false) : hasPair a b m = false := by
  subst hl
  rw [List.append_assoc, hasPair_append, hasPair_append] at h
  simp only [Bool.or_eq_false_iff] at h
  exact h.1.2.1.1

theorem stripR_decomp (l : List Char) : ∃ r, l = stripR l ++ r := by
  induction l with
  | nil => exact ⟨[], rfl⟩
  | cons c t ih =>
    obtain ⟨r, hr⟩ := ih
    cases hs : stripR t with
    | nil =>
      by_cases hw : pyWs c = true
      · exact ⟨c :: t, by simp [stripR, hs, hw]⟩
      · refine ⟨r, ?_⟩
        simp [stripR, hs, hw]
        rw [hr, hs]; rfl
    | cons d rr =>
      refine ⟨r, ?_⟩
      simp [stripR, hs]
      rw [hr, hs]; rfl

theorem pyStrip_decomp (l : List Char) : ∃ u v, l = u ++ pyStrip l ++ v := by
  obtain ⟨v, hv⟩ := stripR_decomp (stripL l)
  refine ⟨l.takeWhile pyWs, v, ?_⟩
  show l = l.takeWhile pyWs ++ stripR (stripL l) ++ v
  conv_lhs => rw [← List.takeWhile_append_dropWhile (p := pyWs) (l := l)]
  rw [List.append_assoc, ← hv]
  rfl

theorem splitOnChar_ne_nil (c : Char) (l : List Char) : splitOnChar c l ≠ [] := by
  induction l with
  | nil => simp [splitOnChar]
  | cons d t ih =>
    simp only [splitOnChar]
    split
    · simp
    · cases h : splitOnChar c t <;> simp

theorem splitOnChar_head_init (c : Char) (l : List Char) :
    ∀ h r, splitOnChar c l = h :: r → ∃ rest, l = h ++ rest := by
  induction l with
  | nil =>
    intro h r he
    simp only [splitOnChar] at he
    injection he with h1 h2
    exact ⟨[], by simp [← h1]⟩
  | cons d t ih =>
    intro h r he
    cases hs : splitOnChar c t with
    | nil => exact absurd hs (splitOnChar_ne_nil c t)
    | cons h' r' =>
      simp only [splitOnChar, hs] at he
      split at he
      · injection he with h1 h2
        exact ⟨d :: t, by simp [← h1]⟩
      · injection he with h1 h2
        obtain ⟨rest, hrest⟩ := ih h' r' hs
        exact ⟨rest, by rw [← h1, hrest]; rfl⟩

theorem splitOnChar_mem_parts {c : Char} {l m : List Char}
    (hm : m ∈ splitOnChar c l) : ∃ u v, l = u ++ m ++ v := by
  induction l generalizing m with
  | nil =>
    simp only [splitOnChar, List.mem_singleton] at hm
    exact ⟨[], [], by simp [hm]⟩
  | cons d t ih =>
    cases hs : splitOnChar c t with
    | nil => exact absurd hs (splitOnChar_ne_nil c t)
    | cons h' r' =>
      simp only [splitOnChar, hs] at hm
      split at hm
      · rcases List.mem_cons.mp hm with h | h
        · exact ⟨[], d :: t, by simp [h]⟩
        · obtain ⟨u, v, huv⟩ := ih (m := m) (by rw [hs]; exact h)
          exact ⟨d :: u, v, by rw [huv]; rfl⟩
      · rcases List.mem_cons.mp hm with h | h
        · obtain ⟨rest, hrest⟩ := splitOnChar_head_init c t h' r' hs
          exact ⟨[], rest, by rw [h, hrest]; rfl⟩
        · obtain ⟨u, v, huv⟩ := ih (m := m) (by rw [hs]; exact List.mem_cons_of_mem _ h)
          exact ⟨d :: u, v, by rw [huv]; rfl⟩

theorem joinChar_splitOnChar (c : Char) (l : List Char) :
    joinChar c (splitOnChar c l) = l := by
  induction l with
  | nil => rfl
  | cons d t ih =>
    cases hs : splitOnChar c t with
    | nil => exact absurd hs (splitOnChar_ne_nil c t)
    | cons h' r' =>
      rw [hs] at ih
      simp only [splitOnChar, hs]
      split
      · next hd =>
        have hj : joinChar c ([] :: h' :: r') = c :: joinChar c (h' :: r') := rfl
        rw [hj, ih, (beq_iff_eq).mp hd]
      · cases r' with
        | nil => simp only [joinChar] at ih ⊢; rw [ih]
        | cons h'' r'' => simp only [joinChar] at ih ⊢; rw [List.cons_append, ih]

theorem hasPair_cons_false {a b c : Char} {l : List Char}
    (h1 : a ≠ c ∨ l.head? ≠ some b) (h2 : hasPair a b l = false) :
    hasPair a b (c :: l) = false := by
  cases l with
  | nil => rfl
  | cons d t =>
    simp only [hasPair, Bool.or_eq_false_iff]
    refine ⟨?_, h2⟩
    rcases h1 with h | h
    · simp [beq_eq_false_iff_ne.mpr h]
    · have hdb : b ≠ d := by
        intro he
        exact h (by simp [he])
      simp [beq_eq_false_iff_ne.mpr hdb]

/-! ## Identity of `clean_abc` on fully sanitized text -/

theorem underscoreToB_id {l : List Char} (h : l.contains '_' = false) :
    underscoreToB l = l := by
  induction l with
  | nil => rfl
  | cons c t ih =>
    simp only [List.contains_cons, Bool.or_eq_false_iff] at h
    simp only [underscoreToB, List.map_cons]
    rw [beqComm] at h
    simp only [h.1, if_false]
    exact congrArg (c :: ·) (ih h.2)

theorem replColonBar_id {l : List Char} :
    hasPair ':' '|' l = false → replColonBar l = l := by
  induction l using replColonBar.induct with
  | case1 t ih => intro h; simp [hasPair] at h
  | case2 c t hnm ih =>
    intro h
    rw [replColonBar.eq_2 c t hnm, ih (hasPair_tail h)]
  | case3 => intro h; rfl

theorem replBarColon_id {l : List Char} :
    hasPair '|' ':' l = false → replBarColon l = l := by
  induction l using replBarColon.induct with
  | case1 t ih => intro h; simp [hasPair] at h
  | case2 c t hnm ih =>
    intro h
    rw [replBarColon.eq_2 c t hnm, ih (hasPair_tail h)]
  | case3 => intro h; rfl

theorem contains_iff_mem {a : Char} {l : List Char} : l.contains a = true ↔ a ∈ l :=
  List.elem_iff

theorem cleanLine_id {l : List Char}
    (hstrip : pyStrip l = l)
    (hline : (isHeaderLine l || !(l.contains '|') ||
      (startsList ['|'] l && (l.getLast? == some '|'))) = true) :
    cleanLine l = l := by
  by_cases hh : isHeaderLine l = true
  · simp [cleanLine, hstrip, hh]
  · by_cases hc : l.contains '|' = true
    · simp only [hh, hc, Bool.not_true, Bool.or_false, Bool.false_or] at hline
      rw [Bool.and_eq_true] at hline
      simp [cleanLine, hstrip, hh, contains_iff_mem.mp hc, barFix, hline.1, hline.2]
    · have hc' : ¬ ('|' ∈ l) := fun hm => hc (contains_iff_mem.mpr hm)
      simp [cleanLine, hstrip, hh, hc']

/-- The syntactic shape of fully sanitized notation text: no alternate
accidental marker, outer-stripped, every line stripped and either
header-prefixed, bar-free, or bar-bounded, and no residual repeat
shorthand. -/
def sanitizedInvB (y : List Char) : Bool :=
  !(y.contains '_') && (pyStrip y == y) &&
  ((splitOnChar '\n' y).all fun l =>
    (pyStrip l == l) &&
    (isHeaderLine l || !(l.contains '|') ||
      (startsList ['|'] l && (l.getLast? == some '|')))) &&
  !(hasPair ':' '|' y) && !(hasPair '|' ':' y)

theorem clean_abc_fixpoint {y : List Char} (h : sanitizedInvB y = true) :
    clean_abc y = y := by
  simp only [sanitizedInvB, Bool.and_eq_true, Bool.not_eq_true'] at h
  obtain ⟨⟨⟨⟨h1, h2⟩, h3⟩, h4⟩, h5⟩ := h
  have h2' : pyStrip y = y := eq_of_beq h2
  have hmap : (splitOnChar '\n' y).map cleanLine = splitOnChar '\n' y := by
    have hall := List.all_eq_true.mp h3
    calc (splitOnChar '\n' y).map cleanLine
        = (splitOnChar '\n' y).map id := by
          apply List.map_congr_left
          intro l hl
          have hli := hall l hl
          rw [Bool.and_eq_true] at hli
          exact cleanLine_id (eq_of_beq hli.1) hli.2
      _ = splitOnChar '\n' y := List.map_id (splitOnChar '\n' y)
  show replBarColon (replColonBar
    (joinChar '\n' ((splitOnChar '\n' (pyStrip (underscoreToB y))).map cleanLine))) = y
  rw [underscoreToB_id h1, h2', hmap, joinChar_splitOnChar,
    replColonBar_id h4, replBarColon_id h5]

/-! ## The repeat-shorthand replacements on text free of double colons -/

theorem pairCC_underscore (l : List Char) :
    hasPair ':' ':' (underscoreToB l) = hasPair ':' ':' l := by
  have hf : ∀ e : Char, (((':' : Char)) == (if e == '_' then 'b' else e)) = ((':' : Char) == e) := by
    intro e
    by_cases he : e = '_'
    · subst he; decide
    · rw [beq_eq_false_iff_ne.mpr he, if_neg (by simp)]
  induction l with
  | nil => rfl
  | cons c t ih =>
    cases t with
    | nil => rfl
    | cons d t' =>
      simp only [underscoreToB, List.map_cons] at ih ⊢
      simp only [hasPair, hf c, hf d]
      rw [ih]

theorem pairCC_join {ls : List (List Char)}
    (h : ∀ m ∈ ls, hasPair ':' ':' m = false) :
    hasPair ':' ':' (joinChar '\n' ls) = false := by
  induction ls with
  | nil => rfl
  | cons l ls ih =>
    cases ls with
    | nil => exact h l (by simp)
    | cons l2 ls2 =>
      have hl : hasPair ':' ':' l = false := h l (by simp)
      have hrest : hasPair ':' ':' (joinChar '\n' (l2 :: ls2)) = false :=
        ih fun m hm => h m (List.mem_cons_of_mem _ hm)
      show hasPair ':' ':' (l ++ '\n' :: joinChar '\n' (l2 :: ls2)) = false
      rw [hasPair_append]
      have hmid : hasPair ':' ':' ('\n' :: joinChar '\n' (l2 :: ls2)) = false :=
        hasPair_cons_false (Or.inl (by decide)) hrest
      have hbnd : (List.head? ('\n' :: joinChar '\n' (l2 :: ls2)) == some (':' : Char)) = false := by
        simp only [List.head?_cons]
        decide
      simp [hl, hmid, hbnd]

theorem pairCC_barFix {l : List Char} (h : hasPair ':' ':' l = false) :
    hasPair ':' ':' (barFix l) = false := by
  have hcons : hasPair ':' ':' ('|' :: l) = false :=
    hasPair_cons_false (Or.inl (by decide)) h
  have happ : ∀ (x : List Char), hasPair ':' ':' x = false →
      hasPair ':' ':' (x ++ ['|']) = false := by
    intro x hx
    rw [hasPair_append]
    have e1 : hasPair ':' ':' ['|'] = false := rfl
    have e2 : (List.head? ['|'] == some (':' : Char)) = false := by decide
    simp [hx, e1, e2]
  unfold barFix
  by_cases hs : startsList ['|'] l = true
  · simp only [hs, if_true]
    by_cases he : (l.getLast? == some '|') = true
    · simp [he, h]
    · simp [he, happ l h]
  · simp only [hs, Bool.false_eq_true, if_false]
    by_cases he : (('|' :: l).getLast? == some '|') = true
    · simp [he, hcons]
    · simp only [he, Bool.false_eq_true, if_false]
      have := happ _ hcons
      simpa using this

theorem pairCC_cleanLine {l : List Char} (h : hasPair ':' ':' l = false) :
    hasPair ':' ':' (cleanLine l) = false := by
  have hstrip : hasPair ':' ':' (pyStrip l) = false := by
    obtain ⟨u, v, huv⟩ := pyStrip_decomp l
    exact hasPair_infix_false huv h
  by_cases hh : isHeaderLine (pyStrip l) = true
  · simp [cleanLine, hh, hstrip]
  · by_cases hc : (pyStrip l).contains '|' = true
    · have hcl : cleanLine l = barFix (pyStrip l) := by
        simp [cleanLine, hh, contains_iff_mem.mp hc]
      rw [hcl]
      exact pairCC_barFix hstrip
    · have hc' : ¬ ('|' ∈ pyStrip l) := fun hm => hc (contains_iff_mem.mpr hm)
      simp [cleanLine, hh, hc', hstrip]

theorem replColonBar_head? (l : List Char) :
    (replColonBar l).head? = l.head? ∨
      ((replColonBar l).head? = some '|' ∧ l.head? = some ':') := by
  induction l using replColonBar.induct with
  | case1 t ih => right; exact ⟨rfl, rfl⟩
  | case2 c t hnm ih => left; rw [replColonBar.eq_2 c t hnm]; rfl
  | case3 => left; rfl

theorem replBarColon_head? (l : List Char) :
    (replBarColon l).head? = l.head? := by
  induction l using replBarColon.induct with
  | case1 t ih => rfl
  | case2 c t hnm ih => rw [replBarColon.eq_2 c t hnm]; rfl
  | case3 => rfl

theorem replColonBar_noCC {l : List Char} :
    hasPair ':' ':' l = false →
      hasPair ':' '|' (replColonBar l) = false ∧
      hasPair ':' ':' (replColonBar l) = false := by
  induction l using replColonBar.induct with
  | case1 t ih =>
    intro h
    obtain ⟨ih1, ih2⟩ := ih (hasPair_tail (hasPair_tail h))
    exact ⟨hasPair_cons_false (Or.inl (by decide)) ih1,
           hasPair_cons_false (Or.inl (by decide)) ih2⟩
  | case2 c t hnm ih =>
    intro h
    obtain ⟨ih1, ih2⟩ := ih (hasPair_tail h)
    rw [replColonBar.eq_2 c t hnm]
    constructor
    · apply hasPair_cons_false ?_ ih1
      by_cases hc : c = ':'
      · subst hc
        right
        rcases replColonBar_head? t with hh | ⟨hh1, hh2⟩
        · rw [hh]
          cases t with
          | nil => simp
          | cons u t' =>
            simp only [List.head?_cons, ne_eq, Option.some.injEq]
            intro he
            exact hnm t' rfl (by rw [he])
        · exfalso
          cases t with
          | nil => simp at hh2
          | cons u t' =>
            simp only [List.head?_cons, Option.some.injEq] at hh2
            subst hh2
            simp [hasPair] at h
      · exact Or.inl (Ne.symm hc)
    · apply hasPair_cons_false ?_ ih2
      by_cases hc : c = ':'
      · subst hc
        right
        rcases replColonBar_head? t with hh | ⟨hh1, hh2⟩
        · rw [hh]
          cases t with
          | nil => simp
          | cons u t' =>
            simp only [List.head?_cons, ne_eq, Option.some.injEq]
            intro he
            subst he
            simp [hasPair] at h
        · rw [hh1]
          simp
      · exact Or.inl (Ne.symm hc)
  | case3 => intro h; exact ⟨rfl, rfl⟩

theorem replBarColon_noRem {l : List Char} :
    hasPair ':' ':' l = false → hasPair ':' '|' l = false →
      hasPair '|' ':' (replBarColon l) = false ∧
      hasPair ':' '|' (replBarColon l) = false := by
  induction l using replBarColon.induct with
  | case1 t ih =>
    intro h1 h2
    obtain ⟨ih1, ih2⟩ := ih (hasPair_tail (hasPair_tail h1)) (hasPair_tail (hasPair_tail h2))
    constructor
    · apply hasPair_cons_false ?_ ih1
      right
      rw [replBarColon_head? t]
      cases t with
      | nil => simp
      | cons u t' =>
        simp only [List.head?_cons, ne_eq, Option.some.injEq]
        intro he
        subst he
        simp [hasPair] at h1
    · exact hasPair_cons_false (Or.inl (by decide)) ih2
  | case2 c t hnm ih =>
    intro h1 h2
    obtain ⟨ih1, ih2⟩ := ih (hasPair_tail h1) (hasPair_tail h2)
    rw [replBarColon.eq_2 c t hnm]
    constructor
    · apply hasPair_cons_false ?_ ih1
      by_cases hc : c = '|'
      · subst hc
        right
        rw [replBarColon_head? t]
        cases t with
        | nil => simp
        | cons u t' =>
          simp only [List.head?_cons, ne_eq, Option.some.injEq]
          intro he
          exact hnm t' rfl (by rw [he])
      · exact Or.inl (Ne.symm hc)
    · apply hasPair_cons_false ?_ ih2
      by_cases hc : c = ':'
      · subst hc
        right
        rw [replBarColon_head? t]
        cases t with
        | nil => simp
        | cons u t' =>
          simp only [List.head?_cons, ne_eq, Option.some.injEq]
          intro he
          subst he
          simp [hasPair] at h2
      · exact Or.inl (Ne.symm hc)
  | case3 => intro h1 h2; exact ⟨rfl, rfl⟩

theorem clean_abc_no_shorthand {x : List Char} (h : hasPair ':' ':' x = false) :
    hasPair ':' '|' (clean_abc x) = false ∧
    hasPair '|' ':' (clean_abc x) = false := by
  have h1 : hasPair ':' ':' (underscoreToB x) = false := by
    rw [pairCC_underscore]; exact h
  have h2 : hasPair ':' ':' (pyStrip (underscoreToB x)) = false := by
    obtain ⟨u, v, huv⟩ := pyStrip_decomp (underscoreToB x)
    exact hasPair_infix_false huv h1
  have h3 : ∀ m ∈ (splitOnChar '\n' (pyStrip (underscoreToB x))).map cleanLine,
      hasPair ':' ':' m = false := by
    intro m hm
    obtain ⟨m0, hm0, hme⟩ := List.mem_map.mp hm
    obtain ⟨u, v, huv⟩ := splitOnChar_mem_parts hm0
    rw [← hme]
    exact pairCC_cleanLine (hasPair_infix_false huv h2)
  have h4 := pairCC_join h3
  obtain ⟨h5a, h5b⟩ := replColonBar_noCC h4
  have h6 := replBarColon_noRem h5b h5a
  exact ⟨h6.2, h6.1⟩

/-! ## Musical parameters (src/spotifAI.py lines 66-89) -/

/-- A loosely typed JSON value as decoded from the generation service. -/
inductive PyVal where
  | int (n : Int)
  | str (s : List Char)
  | strList (xs : List (List Char))
  | other
deriving DecidableEq

/-- The eight fields of the parameters dictionary; `none` models an
absent key. -/
structure ParamsIn where
  tempo : Option PyVal
  time_signature : Option PyVal
  key : Option PyVal
  measures : Option PyVal
  form : Option PyVal
  chord_progression : Option PyVal
  scale : Option PyVal
  style : Option PyVal
deriving DecidableEq

structure MusicalParameters where
  tempo : Int
  time_signature : PyVal
  key : PyVal
  measures : Int
  form : PyVal
  chord_progression : PyVal
  scale : PyVal
  style : PyVal
deriving DecidableEq

/-- `get_default_parameters` (lines 66-76). -/
def get_default_parameters : MusicalParameters where
  tempo := 120
  time_signature := .str (("4/4").toList)
  key := .str (("C").toList)
  measures := 64
  form := .str (("Intro-Verse-Chorus-Verse-Chorus-Bridge-Chorus-Outro").toList)
  chord_progression := .strList [("C").toList, ("G").toList, ("Am").toList, ("F").toList]
  scale := .str (("major").toList)
  style := .str (("pop").toList)

/-- Python `max(lo, min(v, hi))` on a decoded value: clamps an integer
and raises `TypeError` on a non-integer value (lines 81 and 84). -/
def pyClamp (lo hi : Int) : PyVal → Except Unit Int
  | .int n => .ok (max lo (min n hi))
  | _ => .error ()

/-- `validate_parameters` (lines 78-89): absent fields take the fixed
default, tempo and measures are clamped into range; comparing a
non-numeric value raises `TypeError`, which the caller catches. -/
def validate_parameters (p : ParamsIn) : Except Unit MusicalParameters :=
  match pyClamp 90 140 (p.tempo.getD (.int get_default_parameters.tempo)),
        pyClamp 64 128 (p.measures.getD (.int get_default_parameters.measures)) with
  | .ok tempo, .ok measures =>
    .ok { tempo := tempo
          time_signature := p.time_signature.getD get_default_parameters.time_signature
          key := p.key.getD get_default_parameters.key
          measures := measures
          form := p.form.getD get_default_parameters.form
          chord_progression := p.chord_progression.getD get_default_parameters.chord_progression
          scale := p.scale.getD get_default_parameters.scale
          style := p.style.getD get_default_parameters.style }
  | _, _ => .error ()

/-- The `try`/`except` of `determine_musical_parameters` (lines 39-64):
an exception during validation falls back to the defaults. -/
def validate_or_default (p : ParamsIn) : MusicalParameters :=
  match validate_parameters p with
  | .ok m => m
  | .error _ => get_default_parameters

/-! ## Instrumentation Resolver (lines 260-312) -/

/-- A decoded instrumentation mapping: role name to (instrument name,
MIDI channel) pairs. -/
abbrev InstrMap : Type := List (List Char × List (List Char × Int))

/-- `get_default_instruments` (lines 305-312). -/
def get_default_instruments : InstrMap :=
  [ ((("rhythm").toList), [((("DrumSet").toList), 10), ((("ElectricBass").toList), 1)]),
    ((("harmony").toList), [((("Piano").toList), 2)]),
    ((("lead").toList), [((("SynthLead").toList), 3)]),
    ((("accompaniment").toList), [((("Violin").toList), 4)]),
    ((("backing_vocals").toList), [((("VoiceOohs").toList), 5)]) ]

def required_groups : List (List Char) :=
  [("rhythm").toList, ("harmony").toList, ("lead").toList]

/-- `group in instrument_groups` (dict key membership, line 293). -/
def hasGroup (m : InstrMap) (g : List Char) : Bool := m.any fun e => e.1 == g

/-- `determine_instruments` (lines 260-303) downstream of the
generation-service round trip: `none` models a JSON decode failure (or a
raised exception), `some m` a decoded mapping; missing required groups
fall back to the default mapping, and a decoded mapping is otherwise
returned unchanged. -/
def determine_instruments (decoded : Option InstrMap) : InstrMap :=
  match decoded with
  | none => get_default_instruments
  | some m => if required_groups.all (hasGroup m) then m else get_default_instruments

/-- All (instrument, channel) assignments across the groups of a
mapping, in iteration order. -/
def allAssignments (m : InstrMap) : List (List Char × Int) :=
  m.foldr (fun e acc => e.2 ++ acc) []

/-! ## Notes, measures, parts (the music21 object model as the code uses it) -/

/-- A note or rest event: music21 `pitch.name`, `pitch.midi`, `offset`
(relative to the containing stream) and `volume.velocity` (unset =
`None`). -/
structure Note where
  isRest : Bool
  name : List Char
  midi : Nat
  offset : Rat
  velocity : Option Nat
deriving DecidableEq

/-- A `Measure` container: its offset (start) within the part and its
contained notes and rests (offsets measure-relative). -/
structure Meas where
  start : Rat
  elems : List Note
deriving DecidableEq

/-- A part-level element: a loose note/rest, a `Measure` container, or an
unresolved repeat marker. -/
inductive PElem where
  | note (n : Note)
  | meas (m : Meas)
  | rep
deriving DecidableEq

structure Part where
  id : List Char
  channel : Int
  elems : List PElem
deriving DecidableEq

def isMeasB : PElem → Bool
  | .meas _ => true
  | _ => false

def isRepB : PElem → Bool
  | .rep => true
  | _ => false

/-- `part.recurse().getElementsByClass(['Note', 'Rest'])`: every
note/rest event, recursing into measure containers. -/
def flatNotesAndRests (p : Part) : List Note :=
  p.elems.foldr
    (fun e acc =>
      match e with
      | .note n => n :: acc
      | .meas m => m.elems ++ acc
      | .rep => acc) []

/-! ## Percussion Remapper (lines 243-258) -/

/-- Python `str.upper` on an ASCII character. -/
def upperChar (c : Char) : Char :=
  if 'a' ≤ c ∧ c ≤ 'z' then Char.ofNat (c.toNat - 32) else c

def upperList (l : List Char) : List Char := l.map upperChar

/-- The fixed `percussion_map` dictionary (lines 244-253). -/
def percussion_map : List (List Char × Nat) :=
  [(['C'], 36), (['D'], 38), (['E'], 42), (['F'], 46),
   (['G'], 49), (['A'], 51), (['B'], 53), (['z'], 0)]

/-- `percussion_map.get(pitch_name.upper(), 35)` (lines 255-256). -/
def percLookup (name : List Char) : Nat :=
  (percussion_map.lookup (upperList name)).getD 35

/-- Modelled from the external music21 library: assigning `pitch.midi = m`
re-spells the pitch, whose `name` is determined by the pitch class of
`m` (sharps on classes 1, 6 and 8; flats on 3 and 10). -/
def midiToName (m : Nat) : List Char :=
  match m % 12 with
  | 0 => ['C']
  | 1 => ['C', '#']
  | 2 => ['D']
  | 3 => ['E', '-']
  | 4 => ['E']
  | 5 => ['F']
  | 6 => ['F', '#']
  | 7 => ['G']
  | 8 => ['G', '#']
  | 9 => ['A']
  | 10 => ['B', '-']
  | _ => ['B']

/-- The body of `process_drum_part`'s loop for one pitched note
(lines 254-257): look up the uppercased pitch name and assign the
resulting key to `pitch.midi`, which re-spells the name.  Rests carry no
pitch, are not in `.notes`, and stay untouched. -/
def remapNote (n : Note) : Note :=
  if n.isRest then n
  else
    let k := percLookup n.name
    { n with midi := k, name := midiToName k }

def remapElem : PElem → PElem
  | .note n => .note (remapNote n)
  | .meas m => .meas { m with elems := m.elems.map remapNote }
  | .rep => .rep

/-- `process_drum_part` (lines 243-258). -/
def process_drum_part (p : Part) : Part :=
  { p with elems := p.elems.map remapElem }

/-- `create_drum_part` (lines 224-241): wrap the note/rest events of the
converter's output in a fresh flat part (no `Measure` containers), attach
percussion metadata, and remap once; a parse failure is turned into
`none` by the caller. -/
def create_drum_part (parsed : List Note) (channel : Int) : Part :=
  process_drum_part
    { id := ("DrumSet").toList, channel := channel, elems := parsed.map .note }

/-! ## The process-wide random source -/

/-- The unseeded process-wide random source, modelled as explicit streams
of raw draws consumed one position per call: `ints k` feeds
`random.randint` and `reals k` feeds `random.uniform` (as the fraction of
the interval, clamped into [0, 1]). -/
structure Rng where
  ints : Nat → Nat
  reals : Nat → Rat
  k : Nat

def Rng.next (g : Rng) : Rng := { g with k := g.k + 1 }

/-- `random.randint(lo, hi)`: a value in `[lo, hi]`. -/
def randint (lo hi : Nat) (g : Rng) : Nat × Rng :=
  (lo + g.ints g.k % (hi + 1 - lo), g.next)

/-- `random.uniform(a, b)`: a value in `[a, b]`. -/
def uniform (a b : Rat) (g : Rng) : Rat × Rng :=
  (a + (b - a) * (max 0 (min (g.reals g.k) 1)), g.next)

/-! ## Dynamics & Humanization Shaper (lines 365-393) -/

/-- Python `str.lower` on an ASCII character. -/
def lowerChar (c : Char) : Char :=
  if 'A' ≤ c ∧ c ≤ 'Z' then Char.ofNat (c.toNat + 32) else c

def lowerList (l : List Char) : List Char := l.map lowerChar

def verse_words : List (List Char) := [("verse").toList]
def chorus_words : List (List Char) := [("chorus").toList, ("hook").toList]
def bridge_words : List (List Char) := [("bridge").toList, ("pre-chorus").toList]

def anyWordIn (words : List (List Char)) (s : List Char) : Bool :=
  words.any fun w => subOf w s

/-- The velocity band selected for the active section token
(lines 379-386): verse, then chorus/hook, then bridge/pre-chorus, then
the default band. -/
def velBand (tok : List Char) : Nat × Nat :=
  let s := lowerList tok
  if anyWordIn verse_words s then (60, 75)
  else if anyWordIn chorus_words s then (80, 100)
  else if anyWordIn bridge_words s then (70, 85)
  else (65, 85)

/-- The per-note body of the shaper loop (lines 388-391): a fresh random
velocity in the active band for every pitched note, plus offset jitter in
[-0.02, 0.02] for notes whose offset is strictly positive; rests are not
in `m.notes`. -/
def shapeNotes (band : Nat × Nat) : List Note → Rng → List Note × Rng
  | [], g => ([], g)
  | n :: ns, g =>
    if n.isRest then
      let r := shapeNotes band ns g
      (n :: r.1, r.2)
    else
      let v := (randint band.1 band.2 g).1
      let g1 := (randint band.1 band.2 g).2
      let n1 : Note := { n with velocity := some v }
      let n2 : Note :=
        if 0 < n.offset then { n1 with offset := n1.offset + (uniform (-(1 / 50)) (1 / 50) g1).1 }
        else n1
      let g2 : Rng := if 0 < n.offset then (uniform (-(1 / 50)) (1 / 50) g1).2 else g1
      let r := shapeNotes band ns g2
      (n2 :: r.1, r.2)

/-- `sections[measure_count // section_len]` with the final token
absorbing the remainder (line 376). -/
def sectionTok (sections : List (List Char)) (slen mc : Nat) : List Char :=
  if mc / slen < sections.length then sections.getD (mc / slen) []
  else sections.getLastD []

/-- The measure walk of the shaper: only `Measure` containers are
visited and advance the measure counter. -/
def shapeElems (sections : List (List Char)) (slen : Nat) :
    List PElem → Nat → Rng → List PElem × Rng
  | [], _, g => ([], g)
  | .meas m :: es, mc, g =>
    let band := velBand (sectionTok sections slen mc)
    let sn := shapeNotes band m.elems g
    let r := shapeElems sections slen es (mc + 1) sn.2
    (.meas { m with elems := sn.1 } :: r.1, r.2)
  | e :: es, mc, g =>
    let r := shapeElems sections slen es mc g
    (e :: r.1, r.2)

/-- The Dynamics & Humanization Shaper (lines 365-393): split the
lowercased form on `'-'`, compute the section length, and walk the
measures. -/
def shapePart (p : Part) (form : List Char) (total : Nat) (g : Rng) : Part × Rng :=
  let sections := splitOnChar '-' (lowerList form)
  let slen := max 1 (total / sections.length)
  let r := shapeElems sections slen p.elems 0 g
  ({ p with elems := r.1 }, r.2)

/-! ## Part Builder (lines 169-241) and `generate_part` (lines 314-395) -/

/-- `for note_obj in part.recurse().notes: ... randint(65, 85)`
(lines 215-216): the default velocity pass over the pitched notes. -/
def assignDefaultVel : List Note → Rng → List Note × Rng
  | [], g => ([], g)
  | n :: ns, g =>
    if n.isRest then
      let r := assignDefaultVel ns g
      (n :: r.1, r.2)
    else
      let v := (randint 65 85 g).1
      let r := assignDefaultVel ns (randint 65 85 g).2
      ({ n with velocity := some v } :: r.1, r.2)

/-- `create_part_from_abc` (lines 169-222) downstream of the external
converter: `parsed` stands for the note/rest events the converter
produced from the header-wrapped, annotation-stripped text (`none` for a
parser exception).  The percussion instrument branches to the drum path
before any velocity assignment (line 194); other instruments get their
events wrapped into measure containers (the division points belong to
the external `makeMeasures`, modelled as a single container at offset 0)
and a default velocity per pitched note; a part with no note/rest events
is a soft failure. -/
def create_part_from_abc (parsed : Option (List Note)) (instr : List Char)
    (channel : Int) (g : Rng) : Option Part × Rng :=
  if instr = ("DrumSet").toList then
    (parsed.map fun evs => create_drum_part evs channel, g)
  else
    match parsed with
    | none => (none, g)
    | some evs =>
      if evs.isEmpty then (none, g)
      else
        let r := assignDefaultVel evs g
        (some { id := instr, channel := channel,
                elems := [.meas { start := 0, elems := r.1 }] }, r.2)

/-- `generate_part` (lines 314-395) downstream of the generation service
and the converter (the voice-tag rewrite, `clean_abc` and the parse are
upstream of `parsed`): the drum path remaps a second time (lines
357-358), an eventless part is rejected (lines 360-363), and the
Dynamics & Humanization Shaper walks the measure containers. -/
def generate_part (instr : List Char) (channel : Int) (parsed : Option (List Note))
    (form : List Char) (total : Nat) (g : Rng) : Option Part × Rng :=
  let b := create_part_from_abc parsed instr channel g
  match b.1 with
  | none => (none, b.2)
  | some built =>
    let part := if instr = ("DrumSet").toList then process_drum_part built else built
    if (flatNotesAndRests part).isEmpty then (none, b.2)
    else
      let r := shapePart part form total b.2
      (some r.1, r.2)

/-! ## Score Synthesizer: `create_song` (lines 397-435) -/

structure Score where
  tempoMark : Option Int
  timeSigMark : Option PyVal
  parts : List Part
deriving DecidableEq

def hasRepeatMarks (p : Part) : Bool := p.elems.any isRepB

/-- Modelled from the spec: the external library's `expandRepeats`
returns a score whose notated repeats are fully unrolled, so no
unresolved repeat marker remains; the claims depend only on the markers
being resolved. -/
def expandRepeatsPart (p : Part) : Part :=
  { p with elems := p.elems.filter fun e => !(isRepB e) }

/-- `create_song` (lines 397-435) downstream of the per-instrument
pipeline: `outcomes` stands for the `generate_part` results in iteration
order over the instrumentation groups.  A part is accepted only when
non-null with at least one note/rest event (line 417); zero accepted
parts is the fatal failure (`None`, lines 423-425); otherwise the tempo
and time-signature marks inserted at lines 406-407 are present and
repeats are expanded (line 429). -/
def create_song (tempo : Int) (timeSig : PyVal) (outcomes : List (Option Part)) :
    Option Score :=
  let valid := (outcomes.filterMap id).filter fun p => !(flatNotesAndRests p).isEmpty
  if valid.length = 0 then none
  else some { tempoMark := some tempo, timeSigMark := some timeSig,
              parts := valid.map expandRepeatsPart }

/-! ## Random draws stay in range -/

theorem randint_mem (lo hi : Nat) (g : Rng) (h : lo ≤ hi) :
    lo ≤ (randint lo hi g).1 ∧ (randint lo hi g).1 ≤ hi := by
  unfold randint
  have hlt : g.ints g.k % (hi + 1 - lo) < hi + 1 - lo :=
    Nat.mod_lt _ (by omega)
  constructor
  · exact Nat.le_add_right lo _
  · omega

theorem uniform_mem (a b : Rat) (g : Rng) (h : a ≤ b) :
    a ≤ (uniform a b g).1 ∧ (uniform a b g).1 ≤ b := by
  unfold uniform
  set t := max 0 (min (g.reals g.k) 1) with ht
  have ht0 : (0 : Rat) ≤ t := le_max_left 0 _
  have ht1 : t ≤ 1 := max_le (by norm_num) (min_le_right _ 1)
  have hba : (0 : Rat) ≤ b - a := sub_nonneg.mpr h
  constructor
  · have : (0 : Rat) ≤ (b - a) * t := mul_nonneg hba ht0
    simp only []
    linarith
  · have : (b - a) * t ≤ (b - a) * 1 := mul_le_mul_of_nonneg_left ht1 hba
    simp only []
    linarith

/-! ## What one pass of the shaper does to one note -/

/-- The relation between a note entering the shaper loop and the
corresponding note leaving it: rests are untouched; a pitched note keeps
its pitch, gets a velocity in the active band, and its (measure-relative)
offset is jittered by an amount in [-0.02, 0.02] exactly when it was
strictly positive. -/
def ShapedNote (band : Nat × Nat) (nIn nOut : Note) : Prop :=
  (nIn.isRest = true → nOut = nIn) ∧
  (nIn.isRest = false →
    nOut.isRest = false ∧ nOut.name = nIn.name ∧ nOut.midi = nIn.midi ∧
    (∃ v, nOut.velocity = some v ∧ band.1 ≤ v ∧ v ≤ band.2) ∧
    (0 < nIn.offset →
      ∃ d, -(1 / 50) ≤ d ∧ d ≤ 1 / 50 ∧ nOut.offset = nIn.offset + d) ∧
    (¬ 0 < nIn.offset → nOut.offset = nIn.offset))

theorem shapeNotes_cons_rest (band : Nat × Nat) (n : Note) (ns : List Note) (g : Rng)
    (h : n.isRest = true) :
    shapeNotes band (n :: ns) g =
      (n :: (shapeNotes band ns g).1, (shapeNotes band ns g).2) := by
  simp [shapeNotes, h]

theorem shapeNotes_cons_pos (band : Nat × Nat) (n : Note) (ns : List Note) (g : Rng)
    (h : n.isRest = false) (ho : 0 < n.offset) :
    shapeNotes band (n :: ns) g =
      ({ n with velocity := some (randint band.1 band.2 g).1,
                offset := n.offset +
                  (uniform (-(1 / 50)) (1 / 50) (randint band.1 band.2 g).2).1 } ::
         (shapeNotes band ns
           (uniform (-(1 / 50)) (1 / 50) (randint band.1 band.2 g).2).2).1,
       (shapeNotes band ns
         (uniform (-(1 / 50)) (1 / 50) (randint band.1 band.2 g).2).2).2) := by
  simp [shapeNotes, h, ho]

theorem shapeNotes_cons_zero (band : Nat × Nat) (n : Note) (ns : List Note) (g : Rng)
    (h : n.isRest = false) (ho : ¬ 0 < n.offset) :
    shapeNotes band (n :: ns) g =
      ({ n with velocity := some (randint band.1 band.2 g).1 } ::
         (shapeNotes band ns (randint band.1 band.2 g).2).1,
       (shapeNotes band ns (randint band.1 band.2 g).2).2) := by
  simp [shapeNotes, h, ho]

theorem shapeNotes_spec (band : Nat × Nat) (hb : band.1 ≤ band.2) :
    ∀ (ns : List Note) (g : Rng),
      List.Forall₂ (ShapedNote band) ns (shapeNotes band ns g).1 := by
  intro ns
  induction ns with
  | nil => intro g; exact List.Forall₂.nil
  | cons n ns ih =>
    intro g
    by_cases hr : n.isRest = true
    · rw [shapeNotes_cons_rest band n ns g hr]
      refine List.forall₂_cons.mpr ⟨⟨fun _ => rfl, fun hc => ?_⟩, ih _⟩
      rw [hr] at hc
      exact absurd hc (by simp)
    · have hr' : n.isRest = false := by simpa using hr
      by_cases ho : 0 < n.offset
      · rw [shapeNotes_cons_pos band n ns g hr' ho]
        refine List.forall₂_cons.mpr ⟨⟨fun hc => ?_, fun _ => ?_⟩, ih _⟩
        · rw [hr'] at hc; exact absurd hc (by simp)
        · refine ⟨hr', rfl, rfl, ⟨(randint band.1 band.2 g).1, rfl, randint_mem _ _ _ hb⟩, ?_, ?_⟩
          · intro _
            refine ⟨(uniform (-(1 / 50)) (1 / 50) (randint band.1 band.2 g).2).1,
              ?_, ?_, rfl⟩
            · exact (uniform_mem _ _ _ (by norm_num)).1
            · exact (uniform_mem _ _ _ (by norm_num)).2
          · intro hno; exact absurd ho hno
      · rw [shapeNotes_cons_zero band n ns g hr' ho]
        refine List.forall₂_cons.mpr ⟨⟨fun hc => ?_, fun _ => ?_⟩, ih _⟩
        · rw [hr'] at hc; exact absurd hc (by simp)
        · exact ⟨hr', rfl, rfl, ⟨(randint band.1 band.2 g).1, rfl, randint_mem _ _ _ hb⟩,
            fun hp => absurd hp ho, fun _ => rfl⟩

/-! ## What one pass of the shaper does to one part -/

theorem velBand_le (tok : List Char) : (velBand tok).1 ≤ (velBand tok).2 := by
  unfold velBand
  dsimp only
  split_ifs <;> norm_num

/-- The relation between a part-level element entering the measure loop
and the element leaving it: only `Measure` containers change, and their
contents are shaped note-by-note for some well-formed band. -/
inductive ShapedElem : PElem → PElem → Prop where
  | note (n : Note) : ShapedElem (.note n) (.note n)
  | rep : ShapedElem .rep .rep
  | meas (mIn : Meas) (ns : List Note) (band : Nat × Nat)
      (hb : band.1 ≤ band.2) (h : List.Forall₂ (ShapedNote band) mIn.elems ns) :
      ShapedElem (.meas mIn) (.meas { mIn with elems := ns })

theorem shapeElems_spec (sections : List (List Char)) (slen : Nat) :
    ∀ (es : List PElem) (mc : Nat) (g : Rng),
      List.Forall₂ ShapedElem es (shapeElems sections slen es mc g).1 := by
  intro es
  induction es with
  | nil => intro mc g; exact List.Forall₂.nil
  | cons e es ih =>
    intro mc g
    cases e with
    | note n => exact List.forall₂_cons.mpr ⟨ShapedElem.note n, ih _ _⟩
    | rep => exact List.forall₂_cons.mpr ⟨ShapedElem.rep, ih _ _⟩
    | meas m =>
      refine List.forall₂_cons.mpr ⟨?_, ih _ _⟩
      exact ShapedElem.meas m _ (velBand (sectionTok sections slen mc))
        (velBand_le _) (shapeNotes_spec _ (velBand_le _) m.elems g)

theorem shapePart_spec (p : Part) (form : List Char) (total : Nat) (g : Rng) :
    List.Forall₂ ShapedElem p.elems (shapePart p form total g).1.elems ∧
    (shapePart p form total g).1.id = p.id ∧
    (shapePart p form total g).1.channel = p.channel := by
  exact ⟨shapeElems_spec _ _ p.elems 0 g, rfl, rfl⟩

/-! ## The shaper skips parts with no measure containers -/

theorem shapeElems_no_meas {es : List PElem} (h : ∀ e ∈ es, isMeasB e = false) :
    ∀ (sections : List (List Char)) (slen mc : Nat) (g : Rng),
      shapeElems sections slen es mc g = (es, g) := by
  induction es with
  | nil => intro _ _ _ _; rfl
  | cons e es ih =>
    intro sections slen mc g
    have ht : ∀ x ∈ es, isMeasB x = false := fun x hx => h x (List.mem_cons_of_mem _ hx)
    cases e with
    | note n =>
      show ((.note n) :: (shapeElems sections slen es mc g).1,
        (shapeElems sections slen es mc g).2) = _
      rw [ih ht]
    | meas m => exact absurd (h (.meas m) (by simp)) (by simp [isMeasB])
    | rep =>
      show ((.rep : PElem) :: (shapeElems sections slen es mc g).1,
        (shapeElems sections slen es mc g).2) = _
      rw [ih ht]

theorem shapePart_no_meas {p : Part} (h : ∀ e ∈ p.elems, isMeasB e = false)
    (form : List Char) (total : Nat) (g : Rng) :
    shapePart p form total g = (p, g) := by
  unfold shapePart
  dsimp only
  rw [shapeElems_no_meas h]

/-! ## Facts about the Percussion Remapper -/

theorem remapNote_velocity (n : Note) : (remapNote n).velocity = n.velocity := by
  unfold remapNote; split <;> rfl

theorem remapNote_offset (n : Note) : (remapNote n).offset = n.offset := by
  unfold remapNote; split <;> rfl

theorem remapNote_isRest (n : Note) : (remapNote n).isRest = n.isRest := by
  unfold remapNote; split <;> rfl

theorem lookup_mem_values {u : List Char} {v : Nat} :
    ∀ {tbl : List (List Char × Nat)}, List.lookup u tbl = some v →
      v ∈ tbl.map Prod.snd := by
  intro tbl
  induction tbl with
  | nil => intro h; simp [List.lookup] at h
  | cons e t ih =>
    intro h
    obtain ⟨k, b⟩ := e
    cases hk : u == k with
    | true =>
      simp only [List.lookup, hk, Option.some.injEq] at h
      subst h
      simp
    | false =>
      simp only [List.lookup, hk] at h
      exact List.mem_cons_of_mem _ (ih h)

theorem percLookup_mem (name : List Char) :
    percLookup name ∈ ([36, 38, 42, 46, 49, 51, 53, 0, 35] : List Nat) := by
  unfold percLookup
  cases h : List.lookup (upperList name) percussion_map with
  | none => simp
  | some v =>
    have hv := lookup_mem_values h
    simp only [percussion_map, List.map_cons, List.map_nil, List.mem_cons,
      List.not_mem_nil, or_false] at hv
    rcases hv with rfl | rfl | rfl | rfl | rfl | rfl | rfl | rfl <;> simp

/-! ## The drum pipeline applies the remapper twice, flat -/

theorem flat_note_map (idv : List Char) (ch : Int) (l : List Note) (f : Note → Note) :
    flatNotesAndRests
      { id := idv, channel := ch, elems := l.map fun n => .note (f n) } = l.map f := by
  unfold flatNotesAndRests
  induction l with
  | nil => rfl
  | cons n ns ih => simpa using ih

theorem generate_part_drum (parsed : List Note) (ch : Int) (form : List Char)
    (total : Nat) (g : Rng) :
    generate_part (("DrumSet").toList) ch (some parsed) form total g =
      (if parsed.isEmpty then none
       else some { id := ("DrumSet").toList, channel := ch,
                   elems := parsed.map fun n => .note (remapNote (remapNote n)) }, g) := by
  have h1 : create_part_from_abc (some parsed) (("DrumSet").toList) ch g =
      (some (create_drum_part parsed ch), g) := by
    simp [create_part_from_abc]
  have h2 : process_drum_part (create_drum_part parsed ch) =
      { id := ("DrumSet").toList, channel := ch,
        elems := parsed.map fun n => .note (remapNote (remapNote n)) } := by
    simp only [create_drum_part, process_drum_part, List.map_map]
    congr 1
  unfold generate_part
  rw [h1]
  dsimp only
  rw [if_pos rfl, h2]
  by_cases hp : parsed.isEmpty = true
  · have hnil : parsed = [] := List.isEmpty_iff.mp hp
    subst hnil
    simp [flatNotesAndRests]
  · have hne : parsed ≠ [] := fun hc => hp (by simp [hc])
    have hflat : flatNotesAndRests
        { id := ("DrumSet").toList, channel := ch,
          elems := parsed.map fun n => .note (remapNote (remapNote n)) } =
        parsed.map fun n => remapNote (remapNote n) := flat_note_map _ _ _ _
    have hflatne : ((parsed.map fun n => remapNote (remapNote n)).isEmpty) = false := by
      cases parsed with
      | nil => exact absurd rfl hne
      | cons a t => rfl
    have hnomeas : ∀ e ∈ (parsed.map fun n => PElem.note (remapNote (remapNote n))),
        isMeasB e = false := by
      intro e he
      obtain ⟨n, _, rfl⟩ := List.mem_map.mp he
      rfl
    rw [hflat, hflatne]
    simp only [Bool.false_eq_true, if_false, hp]
    rw [shapePart_no_meas hnomeas]

/-! ## Substring containment, characterized -/

theorem startsList_iff {p l : List Char} : startsList p l = true ↔ ∃ r, l = p ++ r := by
  induction p generalizing l with
  | nil => simp [startsList]
  | cons a p ih =>
    cases l with
    | nil => simp [startsList]
    | cons b l2 =>
      simp only [startsList, Bool.and_eq_true, beq_iff_eq, ih, List.cons_append,
        List.cons.injEq]
      constructor
      · rintro ⟨rfl, r, rfl⟩
        exact ⟨r, rfl, rfl⟩
      · rintro ⟨r, rfl, rfl⟩
        exact ⟨rfl, r, rfl⟩

theorem subOf_iff {p l : List Char} : subOf p l = true ↔ ∃ u v, l = u ++ p ++ v := by
  induction l with
  | nil =>
    show startsList p [] = true ↔ _
    rw [startsList_iff]
    constructor
    · rintro ⟨r, hr⟩
      exact ⟨[], r, by simpa using hr⟩
    · rintro ⟨u, v, huv⟩
      have hu : u = [] := by
        cases u with
        | nil => rfl
        | cons x u2 => simp at huv
      subst hu
      exact ⟨v, by simpa using huv⟩
  | cons c t ih =>
    simp only [subOf, Bool.or_eq_true, startsList_iff, ih]
    constructor
    · rintro (⟨r, hr⟩ | ⟨u, v, huv⟩)
      · exact ⟨[], r, by simpa using hr⟩
      · exact ⟨c :: u, v, by rw [huv]; rfl⟩
    · rintro ⟨u, v, huv⟩
      cases u with
      | nil => exact Or.inl ⟨v, by simpa using huv⟩
      | cons x u2 =>
        right
        rw [List.cons_append, List.cons_append, List.cons.injEq] at huv
        exact ⟨u2, v, huv.2⟩

theorem subOf_trans {a b c : List Char} (h1 : subOf a b = true) (h2 : subOf b c = true) :
    subOf a c = true := by
  obtain ⟨u1, v1, hb⟩ := subOf_iff.mp h1
  obtain ⟨u2, v2, hc⟩ := subOf_iff.mp h2
  refine subOf_iff.mpr ⟨u2 ++ u1, v1 ++ v2, ?_⟩
  rw [hc, hb]
  simp

theorem mem_of_subOf {p l : List Char} (h : subOf p l = true) {c : Char} (hc : c ∈ p) :
    c ∈ l := by
  obtain ⟨u, v, huv⟩ := subOf_iff.mp h
  subst huv
  simp [hc]

/-- Tokens produced by splitting on a separator never contain the
separator. -/
theorem splitOnChar_no_sep {c : Char} {l t : List Char}
    (ht : t ∈ splitOnChar c l) : c ∉ t := by
  induction l generalizing t with
  | nil =>
    simp only [splitOnChar, List.mem_singleton] at ht
    subst ht
    simp
  | cons d tl ih =>
    cases hs : splitOnChar c tl with
    | nil => exact absurd hs (splitOnChar_ne_nil c tl)
    | cons h2 r2 =>
      simp only [splitOnChar, hs] at ht
      split at ht
      · rcases List.mem_cons.mp ht with rfl | hmem
        · simp
        · exact ih (by rw [hs]; exact hmem)
      · next hd =>
        rcases List.mem_cons.mp ht with rfl | hmem
        · intro hmem2
          rcases List.mem_cons.mp hmem2 with rfl | hmem3
          · exact hd (by simp)
          · exact ih (by rw [hs]; exact List.mem_cons_self h2 r2) hmem3
        · exact ih (by rw [hs]; exact List.mem_cons_of_mem _ hmem)

/-- A form token never contains "pre-chorus": the form is split on the
very separator "pre-chorus" contains. -/
theorem form_token_no_prechorus (form : List Char) :
    ∀ t ∈ splitOnChar '-' (lowerList form),
      subOf (("pre-chorus").toList) t = false := by
  intro t ht
  cases hs : subOf (("pre-chorus").toList) t with
  | false => rfl
  | true =>
    have hdash : '-' ∈ t := mem_of_subOf hs (by decide)
    exact absurd hdash (splitOnChar_no_sep ht)

/-- A token containing "pre-chorus" but not "verse" lands in the chorus
band: the chorus check precedes the bridge/pre-chorus check and
"pre-chorus" contains "chorus". -/
theorem velBand_of_prechorus {tok : List Char}
    (h1 : subOf (("pre-chorus").toList) (lowerList tok) = true)
    (h2 : subOf (("verse").toList) (lowerList tok) = false) :
    velBand tok = (80, 100) := by
  have hch : subOf (("chorus").toList) (lowerList tok) = true :=
    subOf_trans (by decide) h1
  unfold velBand
  dsimp only
  rw [if_neg ?_, if_pos ?_]
  · simp only [anyWordIn, chorus_words, List.any_cons, List.any_nil,
      Bool.or_eq_true, Bool.or_false]
    exact Or.inl hch
  · simp only [anyWordIn, verse_words, List.any_cons, List.any_nil,
      Bool.or_false, h2]
    simp

/-! ## Expanded scores carry no repeat markers -/

theorem expand_no_marks (p : Part) :
    hasRepeatMarks (expandRepeatsPart p) = false := by
  unfold hasRepeatMarks expandRepeatsPart
  cases hs : (p.elems.filter fun e => !(isRepB e)).any isRepB with
  | false => rfl
  | true =>
    obtain ⟨e, hmem, he⟩ := List.any_eq_true.mp hs
    rw [List.mem_filter] at hmem
    rw [he] at hmem
    exact absurd hmem.2 (by simp)

/-! ## Clamp bounds -/

theorem pyClamp_ok_bounds {lo hi : Int} {v : PyVal} {t : Int} (hlo : lo ≤ hi)
    (h : pyClamp lo hi v = .ok t) : lo ≤ t ∧ t ≤ hi := by
  cases v with
  | int n =>
    simp only [pyClamp, Except.ok.injEq] at h
    subst h
    omega
  | str s => simp [pyClamp] at h
  | strList xs => simp [pyClamp] at h
  | other => simp [pyClamp] at h

/-! ## Concrete inputs used by witnesses and counterexamples -/

/-- A pitched note at measure offset 0 with no velocity assigned. -/
def noteA : Note := { isRest := false, name := ['c'], midi := 60, offset := 0, velocity := none }

/-- A pitched note named `E` as the ABC parse of a drum token produces. -/
def noteE : Note := { isRest := false, name := ['E'], midi := 64, offset := 0, velocity := none }

/-- A pitched note carrying the rest letter as its name. -/
def noteZ : Note := { isRest := false, name := ['z'], midi := 60, offset := 0, velocity := none }

/-- A rest event. -/
def restA : Note := { isRest := true, name := [], midi := 0, offset := 0, velocity := none }

/-- A drum part holding the 'z'-named note and a rest. -/
def partZ : Part where
  id := ("DrumSet").toList
  channel := 10
  elems := [.note noteZ, .note restA]

/-- A deterministic instance of the random source: every integer draw is
20 and every unit fraction is 1. -/
def rngA : Rng := { ints := fun _ => 20, reals := fun _ => 1, k := 0 }

/-- A decoded instrumentation mapping that contains the three required
groups but puts the percussion instrument on channel 5. -/
def badInstr : InstrMap :=
  [ ((("rhythm").toList), [((("DrumSet").toList), 5)]),
    ((("harmony").toList), [((("Piano").toList), 2)]),
    ((("lead").toList), [((("SynthLead").toList), 3)]) ]

/-- A part with one note and one unresolved repeat marker. -/
def partW : Part := { id := ['w'], channel := 1, elems := [.note noteA, .rep] }

/-- A part with no events at all. -/
def partE : Part := { id := ['e'], channel := 2, elems := [] }

/-- A two-measure part whose second measure starts at part offset 4 and
opens with a note at measure offset 0. -/
def partC7 : Part :=
  { id := ['p'], channel := 1,
    elems := [.meas { start := 0, elems := [noteA] },
              .meas { start := 4, elems := [noteA] }] }

/-- The drum part the pipeline produces from the one-note parse
`[noteA]` on channel 10. -/
def drumOutW : Part :=
  { id := ("DrumSet").toList, channel := 10,
    elems := [.note (remapNote (remapNote noteA))] }

/-- The number of instruments whose `generate_part` outcome is non-null
with at least one note/rest event. -/
def validCount (outcomes : List (Option Part)) : Nat :=
  ((outcomes.filterMap id).filter fun p => !(flatNotesAndRests p).isEmpty).length

/-- The per-note shaper rule as claim C7 words it — jitter exactly when
the note's offset within the PART (measure start plus measure-relative
offset) is strictly positive — written for comparison with the source
translation `shapeNotes`, which tests the measure-relative offset. -/
def shapeNotesClaim (band : Nat × Nat) (mstart : Rat) : List Note → Rng → List Note × Rng
  | [], g => ([], g)
  | n :: ns, g =>
    if n.isRest then
      let r := shapeNotesClaim band mstart ns g
      (n :: r.1, r.2)
    else
      let v := (randint band.1 band.2 g).1
      let g1 := (randint band.1 band.2 g).2
      let n1 : Note := { n with velocity := some v }
      let n2 : Note :=
        if 0 < mstart + n.offset then
          { n1 with offset := n1.offset + (uniform (-(1 / 50)) (1 / 50) g1).1 }
        else n1
      let g2 : Rng := if 0 < mstart + n.offset then (uniform (-(1 / 50)) (1 / 50) g1).2 else g1
      let r := shapeNotesClaim band mstart ns g2
      (n2 :: r.1, r.2)

/-! # The claims -/

/-- Claim C1, counterexample: a section token containing "pre-chorus" is
classified into the chorus band [80, 100], not [70, 85], because
"pre-chorus" contains "chorus" and the chorus check runs first; with a
concrete random source a note in such a measure receives velocity 100,
outside [70, 85]. -/
theorem claim_C1_counterexample :
    subOf (("pre-chorus").toList) (lowerList (("pre-chorus").toList)) = true ∧
    velBand (("pre-chorus").toList) = (80, 100) ∧
    (shapeNotes (velBand (("pre-chorus").toList)) [noteA] rngA).1.map Note.velocity
      = [some 100] ∧
    ¬ (70 ≤ 100 ∧ 100 ≤ 85) := by
  refine ⟨by decide, by decide, by decide, by decide⟩

/-- Claim C1, amended: a form token (the form string is split on the
separator `'-'`) can never contain the substring "pre-chorus" at all; and
for any section token that does contain "pre-chorus" (case-insensitively)
and does not contain "verse", the shaper assigns every pitched note of
the measure a velocity in the CHORUS band [80, 100] (the chorus check
precedes the bridge/pre-chorus check and "pre-chorus" contains
"chorus"), never the [70, 85] band. -/
theorem claim_C1_amended :
    (∀ form : List Char, ∀ t ∈ splitOnChar '-' (lowerList form),
        subOf (("pre-chorus").toList) t = false) ∧
    (∀ (tok : List Char) (ns : List Note) (g : Rng),
      subOf (("pre-chorus").toList) (lowerList tok) = true →
      subOf (("verse").toList) (lowerList tok) = false →
      List.Forall₂ (ShapedNote (80, 100)) ns (shapeNotes (velBand tok) ns g).1) := by
  refine ⟨form_token_no_prechorus, ?_⟩
  intro tok ns g h1 h2
  rw [velBand_of_prechorus h1 h2]
  exact shapeNotes_spec (80, 100) (by norm_num) ns g

/-- Claim C1, witness for the amended statement at the token
"pre-chorus" and a concrete note and random source. -/
theorem claim_C1_witness :
    List.Forall₂ (ShapedNote (80, 100)) [noteA]
      (shapeNotes (velBand (("pre-chorus").toList)) [noteA] rngA).1 :=
  claim_C1_amended.2 (("pre-chorus").toList) [noteA] rngA (by decide) (by decide)

/-- Claim C2, counterexample: a decoded mapping with the three required
groups passes through the Instrumentation Resolver unchanged even though
its DrumSet assignment uses channel 5 — channel 10 is requested of the
generation service, not enforced by the resolver. -/
theorem claim_C2_counterexample :
    determine_instruments (some badInstr) = badInstr ∧
    ((("DrumSet").toList), (5 : Int)) ∈ allAssignments (determine_instruments (some badInstr)) ∧
    (5 : Int) ≠ 10 := by
  refine ⟨by decide, by decide, by decide⟩

/-- Claim C2, amended: the fixed default mapping does put DrumSet on
channel 10, and the resolver falls back to it on decode failure or
missing required groups; but a successfully decoded mapping containing
the rhythm/harmony/lead groups is returned unchanged, so the percussion
channel is not enforced at resolution time. -/
theorem claim_C2_amended :
    (∀ a ∈ allAssignments get_default_instruments,
        a.1 = ("DrumSet").toList → a.2 = 10) ∧
    determine_instruments none = get_default_instruments ∧
    (∀ m : InstrMap, required_groups.all (hasGroup m) = true →
        determine_instruments (some m) = m) ∧
    (∀ m : InstrMap, required_groups.all (hasGroup m) = false →
        determine_instruments (some m) = get_default_instruments) := by
  refine ⟨by decide, rfl, ?_, ?_⟩
  · intro m hm
    simp [determine_instruments, hm]
  · intro m hm
    simp [determine_instruments, hm]

/-- Claim C2, witness: the amended statement applied to the channel-5
mapping and to the default mapping's own assignments. -/
theorem claim_C2_witness :
    determine_instruments (some badInstr) = badInstr ∧
    ((("DrumSet").toList, (10 : Int)) ∈ allAssignments get_default_instruments →
      (10 : Int) = 10) := by
  constructor
  · exact claim_C2_amended.2.2.1 badInstr (by decide)
  · intro hm
    exact claim_C2_amended.1 _ hm rfl

/-- Claim C5, counterexample: the Notation Sanitizer is not idempotent.
On input "a|b::" the first pass bar-delimits to "|a|b::|" and collapses
one repeat shorthand, leaving "|a|b:|"; a second pass collapses the
newly adjacent ":|" to "|a|b|". -/
theorem claim_C5_counterexample :
    clean_abc (clean_abc (("a|b::").toList)) ≠ clean_abc (("a|b::").toList) := by
  decide

/-- Claim C5, amended: the Notation Sanitizer is idempotent on every
input whose first output is fully sanitized in the syntactic sense
(no alternate accidental marker, outer-stripped, every line stripped and
either header-prefixed, bar-free or bar-bounded, and no residual ":|" or
"|:"); in general a second application can differ. -/
theorem claim_C5_amended (x : List Char) (h : sanitizedInvB (clean_abc x) = true) :
    clean_abc (clean_abc x) = clean_abc x :=
  clean_abc_fixpoint h

/-- Claim C5, witness: a concrete input whose sanitized output satisfies
the invariant, on which the second application changes nothing. -/
theorem claim_C5_witness :
    sanitizedInvB (clean_abc (("C D E|F G A").toList)) = true ∧
    clean_abc (clean_abc (("C D E|F G A").toList)) = clean_abc (("C D E|F G A").toList) :=
  ⟨by decide, claim_C5_amended (("C D E|F G A").toList) (by decide)⟩

/-- Claim C6, counterexample: repeat shorthand can survive one
sanitization pass.  On input "a|b::" the output "|a|b:|" still contains
":|", because replacing the first ":|" occurrence makes the preceding
colon adjacent to the inserted bar. -/
theorem claim_C6_counterexample :
    subOf ([':', '|']) (clean_abc (("a|b::").toList)) = true := by
  decide

/-- Claim C6, amended: for every input containing no two adjacent colons,
the sanitizer output contains no occurrence of ":|" and none of "|:";
inputs with a "::" substring (as in the counterexample) can leak
shorthand through a single pass. -/
theorem claim_C6_amended (x : List Char) (h : subOf ([':', ':']) x = false) :
    subOf ([':', '|']) (clean_abc x) = false ∧
    subOf (['|', ':']) (clean_abc x) = false := by
  rw [subOf_pair] at h
  obtain ⟨h1, h2⟩ := clean_abc_no_shorthand h
  rw [subOf_pair, subOf_pair]
  exact ⟨h1, h2⟩

/-- Claim C6, witness: a concrete double-colon-free input with a header
line and a repeat mark, whose sanitized output carries no shorthand. -/
theorem claim_C6_witness :
    subOf ([':', ':']) (("K:C\nab:|cd").toList) = false ∧
    subOf ([':', '|']) (clean_abc (("K:C\nab:|cd").toList)) = false ∧
    subOf (['|', ':']) (clean_abc (("K:C\nab:|cd").toList)) = false := by
  have h := claim_C6_amended (("K:C\nab:|cd").toList) (by decide)
  exact ⟨by decide, h.1, h.2⟩

/-- Claim C3: the Score Synthesizer returns `none` (the
`NoValidPartsError` outcome) exactly when zero instruments yield a
non-empty part; when n >= 1 instruments succeed, the result is a score
with exactly n parts, non-null tempo and time-signature marks, and no
unresolved repeat markers in any part. -/
theorem claim_C3 (tempo : Int) (timeSig : PyVal) (outcomes : List (Option Part)) :
    (create_song tempo timeSig outcomes = none ↔ validCount outcomes = 0) ∧
    (∀ s, create_song tempo timeSig outcomes = some s →
      s.parts.length = validCount outcomes ∧
      s.tempoMark = some tempo ∧ s.timeSigMark = some timeSig ∧
      ∀ p ∈ s.parts, hasRepeatMarks p = false) := by
  unfold create_song validCount
  by_cases h :
      ((outcomes.filterMap id).filter fun p => !(flatNotesAndRests p).isEmpty).length = 0
  · rw [if_pos h]
    exact ⟨⟨fun _ => h, fun _ => rfl⟩, fun s hs => absurd hs (by simp)⟩
  · rw [if_neg h]
    refine ⟨⟨fun hc => absurd hc (by simp), fun hc => absurd hc h⟩, ?_⟩
    intro s hs
    obtain rfl := Option.some.inj hs
    refine ⟨List.length_map _ _, rfl, rfl, ?_⟩
    intro p hp
    obtain ⟨q, _, rfl⟩ := List.mem_map.mp hp
    exact expand_no_marks q

/-- Claim C3, witness: with one valid part, one null outcome and one
empty part, the synthesizer returns a one-part score with both marks and
no repeat markers. -/
theorem claim_C3_witness :
    ∃ s, create_song 120 PyVal.other [some partW, none, some partE] = some s ∧
      s.parts.length = validCount [some partW, none, some partE] ∧
      s.tempoMark = some 120 ∧ s.timeSigMark = some PyVal.other ∧
      ∀ p ∈ s.parts, hasRepeatMarks p = false := by
  cases hs : create_song 120 PyVal.other [some partW, none, some partE] with
  | none =>
    exfalso
    have h0 := (claim_C3 120 PyVal.other [some partW, none, some partE]).1.mp hs
    revert h0
    decide
  | some s =>
    obtain ⟨h1, h2, h3, h4⟩ :=
      (claim_C3 120 PyVal.other [some partW, none, some partE]).2 s hs
    exact ⟨s, rfl, h1, h2, h3, h4⟩

/-- Claim C4: for every input dictionary — fields absent, out of range,
or of the wrong type — the parameters that reach the pipeline satisfy
90 <= tempo <= 140 and 64 <= measures <= 128 (a `TypeError` raised by the
clamp falls back to the all-default parameters), and every absent field
is replaced by its fixed default. -/
theorem claim_C4 (p : ParamsIn) :
    (90 ≤ (validate_or_default p).tempo ∧ (validate_or_default p).tempo ≤ 140 ∧
     64 ≤ (validate_or_default p).measures ∧ (validate_or_default p).measures ≤ 128) ∧
    (p.tempo = none → (validate_or_default p).tempo = 120) ∧
    (p.measures = none → (validate_or_default p).measures = 64) ∧
    (p.time_signature = none →
      (validate_or_default p).time_signature = get_default_parameters.time_signature) ∧
    (p.key = none → (validate_or_default p).key = get_default_parameters.key) ∧
    (p.form = none → (validate_or_default p).form = get_default_parameters.form) ∧
    (p.chord_progression = none →
      (validate_or_default p).chord_progression = get_default_parameters.chord_progression) ∧
    (p.scale = none → (validate_or_default p).scale = get_default_parameters.scale) ∧
    (p.style = none → (validate_or_default p).style = get_default_parameters.style) := by
  unfold validate_or_default
  cases hv : validate_parameters p with
  | error e =>
    cases e
    refine ⟨by decide, ?_, ?_, ?_, ?_, ?_, ?_, ?_, ?_⟩ <;> intro _ <;> rfl
  | ok m =>
    unfold validate_parameters at hv
    cases hT : pyClamp 90 140 (p.tempo.getD (.int get_default_parameters.tempo)) with
    | error e => rw [hT] at hv; exact absurd hv (by simp)
    | ok t =>
      cases hM : pyClamp 64 128 (p.measures.getD (.int get_default_parameters.measures)) with
      | error e => rw [hT, hM] at hv; exact absurd hv (by simp)
      | ok ms =>
        rw [hT, hM] at hv
        simp only [Except.ok.injEq] at hv
        subst hv
        dsimp only
        obtain ⟨ht1, ht2⟩ := pyClamp_ok_bounds (by norm_num) hT
        obtain ⟨hm1, hm2⟩ := pyClamp_ok_bounds (by norm_num) hM
        refine ⟨⟨ht1, ht2, hm1, hm2⟩, ?_, ?_, ?_, ?_, ?_, ?_, ?_, ?_⟩
        · intro h0
          rw [h0] at hT
          simp only [Option.getD_none, get_default_parameters, pyClamp,
            Except.ok.injEq] at hT
          omega
        · intro h0
          rw [h0] at hM
          simp only [Option.getD_none, get_default_parameters, pyClamp,
            Except.ok.injEq] at hM
          omega
        · intro h0; simp [h0]
        · intro h0; simp [h0]
        · intro h0; simp [h0]
        · intro h0; simp [h0]
        · intro h0; simp [h0]
        · intro h0; simp [h0]

/-- Claim C4, witness: the empty dictionary validates to the defaults,
in range, and an out-of-range integer tempo with a malformed measures
field also lands in range. -/
theorem claim_C4_witness :
    (90 ≤ (validate_or_default
        { tempo := none, time_signature := none, key := none, measures := none,
          form := none, chord_progression := none, scale := none, style := none }).tempo ∧
     (validate_or_default
        { tempo := none, time_signature := none, key := none, measures := none,
          form := none, chord_progression := none, scale := none, style := none }).tempo ≤ 140) ∧
    (validate_or_default
        { tempo := none, time_signature := none, key := none, measures := none,
          form := none, chord_progression := none, scale := none, style := none }).tempo = 120 ∧
    (90 ≤ (validate_or_default
        { tempo := some (.int 500), time_signature := none, key := none,
          measures := some (.str (("many").toList)), form := none,
          chord_progression := none, scale := none, style := none }).tempo ∧
     (validate_or_default
        { tempo := some (.int 500), time_signature := none, key := none,
          measures := some (.str (("many").toList)), form := none,
          chord_progression := none, scale := none, style := none }).tempo ≤ 140) := by
  have h1 := claim_C4
    { tempo := none, time_signature := none, key := none, measures := none,
      form := none, chord_progression := none, scale := none, style := none }
  have h2 := claim_C4
    { tempo := some (.int 500), time_signature := none, key := none,
      measures := some (.str (("many").toList)), form := none,
      chord_progression := none, scale := none, style := none }
  exact ⟨⟨h1.1.1, h1.1.2.1⟩, h1.2.1 rfl, h2.1.1, h2.1.2.1⟩

/-- Claim C7, counterexample: the code tests the note's MEASURE-relative
offset, not its offset within the part.  In a two-measure part whose
second measure starts at part offset 4, the opening note of the second
measure (measure offset 0, part offset 4 > 0) is left untouched even
though the pending uniform draw is the nonzero 1/50 — while the claim's
own rule (`shapeNotesClaim`, which tests the part offset) would move it
to 1/50. -/
theorem claim_C7_counterexample :
    ((shapePart partC7 (("chorus").toList) 8 rngA).1.elems.map fun e =>
        match e with
        | .meas m => m.elems.map Note.offset
        | _ => []) = [[0], [0]] ∧
    (shapeNotesClaim (velBand (("chorus").toList)) 4 [noteA] rngA).1.map Note.offset
      = [1 / 50] ∧
    (4 : Rat) + 0 > 0 ∧
    (uniform (-(1 / 50)) (1 / 50) rngA).1 = 1 / 50 ∧ ((1 : Rat) / 50) ≠ 0 := by
  refine ⟨by decide, ?_, by norm_num, ?_, by norm_num⟩
  · norm_num [shapeNotesClaim, noteA, rngA, uniform, randint, Rng.next]
  · norm_num [uniform, rngA, Rng.next]

/-- Claim C7, amended: a note's offset is perturbed (by a uniformly
random amount in [-0.02, 0.02]) if and only if the note's offset WITHIN
ITS MEASURE is strictly greater than zero; in particular the first note
of every measure (measure offset zero) is left untouched, not only the
note at part offset zero.  Stated through `ShapedElem`/`ShapedNote`,
which record exactly this per-note offset rule. -/
theorem claim_C7_amended (p : Part) (form : List Char) (total : Nat) (g : Rng) :
    List.Forall₂ ShapedElem p.elems (shapePart p form total g).1.elems :=
  (shapePart_spec p form total g).1

/-- Claim C7, witness: the amended statement at the concrete two-measure
part and random source of the counterexample. -/
theorem claim_C7_witness :
    List.Forall₂ ShapedElem partC7.elems
      (shapePart partC7 (("chorus").toList) 8 rngA).1.elems :=
  claim_C7_amended partC7 (("chorus").toList) 8 rngA

/-- Claim C8, counterexample: the Percussion Remapper never assigns the
silence key 0.  A note carrying the rest letter 'z' as its pitch name is
mapped to the fallback 35 (the lookup uppercases the name, and the
table's key is the lowercase 'z'), and rest events are not remapped at
all. -/
theorem claim_C8_counterexample :
    (process_drum_part partZ).elems =
      [.note { noteZ with midi := 35, name := midiToName 35 }, .note restA] ∧
    percLookup ['z'] = 35 ∧ (35 : Nat) ≠ 0 := by
  refine ⟨by decide, by decide, by decide⟩

/-- Claim C8, amended: one application of the Percussion Remapper maps
each pitched note whose uppercased pitch name is one of the seven
canonical letters to its fixed table key, and every other pitched note —
including one named 'z', since lookup uppercases first and makes the
rest-symbol entry unreachable — to the fallback key 35, distinct from
all canonical keys; rest events are left untouched; every produced key
lies in the fixed table plus fallback. -/
theorem claim_C8_amended :
    (∀ name : List Char, percLookup name ∈ ([36, 38, 42, 46, 49, 51, 53, 0, 35] : List Nat)) ∧
    percLookup ['C'] = 36 ∧ percLookup ['D'] = 38 ∧ percLookup ['E'] = 42 ∧
    percLookup ['F'] = 46 ∧ percLookup ['G'] = 49 ∧ percLookup ['A'] = 51 ∧
    percLookup ['B'] = 53 ∧ percLookup ['z'] = 35 ∧
    (35 : Nat) ∉ ([36, 38, 42, 46, 49, 51, 53, 0] : List Nat) ∧
    (∀ name : List Char, List.lookup (upperList name) percussion_map = none →
        percLookup name = 35) ∧
    (∀ n : Note, n.isRest = true → remapNote n = n) ∧
    (∀ n : Note, n.isRest = false →
        (remapNote n).midi = percLookup n.name ∧
        (remapNote n).offset = n.offset ∧ (remapNote n).velocity = n.velocity) ∧
    (∀ p : Part, (process_drum_part p).elems = p.elems.map remapElem) := by
  refine ⟨percLookup_mem, by decide, by decide, by decide, by decide, by decide,
    by decide, by decide, by decide, by decide, ?_, ?_, ?_, fun p => rfl⟩
  · intro name h
    simp [percLookup, h]
  · intro n h
    simp [remapNote, h]
  · intro n h
    unfold remapNote
    rw [if_neg (by simp [h])]
    exact ⟨rfl, rfl, rfl⟩

/-- Claim C8, witness: the amended statement's universally quantified
conjuncts applied to a sharped pitch name, a rest, and a pitched note. -/
theorem claim_C8_witness :
    percLookup (("F#").toList) ∈ ([36, 38, 42, 46, 49, 51, 53, 0, 35] : List Nat) ∧
    remapNote restA = restA ∧
    (remapNote noteE).midi = percLookup noteE.name := by
  refine ⟨claim_C8_amended.1 (("F#").toList), ?_, ?_⟩
  · exact (claim_C8_amended.2.2.2.2.2.2.2.2.2.2.2.1) restA rfl
  · exact ((claim_C8_amended.2.2.2.2.2.2.2.2.2.2.2.2.1) noteE rfl).1

/-- Claim C9: a percussion part reaches the Score Synthesizer with no
velocity ever assigned — the drum construction path returns before the
default [65, 85] velocity pass, `create_drum_part` builds a part with no
`Measure` containers, and the shaper walks only `Measure` containers, so
for drum parts it assigns no velocities and no timing jitter (it does
not even consume the random source). -/
theorem claim_C9 (parsed : List Note) (ch : Int) (form : List Char) (total : Nat)
    (g : Rng) (p : Part) (g2 : Rng)
    (hvel : ∀ e ∈ parsed, e.velocity = none)
    (hres : generate_part (("DrumSet").toList) ch (some parsed) form total g = (some p, g2)) :
    (∀ e ∈ p.elems, isMeasB e = false) ∧
    (∀ n ∈ flatNotesAndRests p, n.velocity = none) ∧
    (flatNotesAndRests p).map Note.offset = parsed.map Note.offset ∧
    g2 = g := by
  rw [generate_part_drum] at hres
  by_cases hp : parsed.isEmpty = true
  · rw [if_pos hp] at hres
    exact absurd (congrArg Prod.fst hres) (by simp)
  · rw [if_neg hp] at hres
    have h1 := congrArg Prod.fst hres
    have h2 := congrArg Prod.snd hres
    simp only [Option.some.injEq] at h1
    subst h1
    refine ⟨?_, ?_, ?_, h2.symm⟩
    · intro e he
      obtain ⟨n, _, rfl⟩ := List.mem_map.mp he
      rfl
    · intro n hn
      rw [flat_note_map] at hn
      obtain ⟨n0, hn0, rfl⟩ := List.mem_map.mp hn
      rw [remapNote_velocity, remapNote_velocity]
      exact hvel n0 hn0
    · rw [flat_note_map, List.map_map]
      apply List.map_congr_left
      intro n _
      show (remapNote (remapNote n)).offset = n.offset
      rw [remapNote_offset, remapNote_offset]

/-- Claim C9, witness: the one-note drum parse on channel 10. -/
theorem claim_C9_witness :
    (∀ e ∈ drumOutW.elems, isMeasB e = false) ∧
    (∀ n ∈ flatNotesAndRests drumOutW, n.velocity = none) ∧
    (flatNotesAndRests drumOutW).map Note.offset = [noteA].map Note.offset ∧
    rngA = rngA :=
  claim_C9 [noteA] 10 (("chorus").toList) 8 rngA drumOutW rngA
    (by decide) (by rw [generate_part_drum]; rfl)

/-- Claim C10: the drum path applies the Percussion Remapper twice —
once inside `create_drum_part` and once again in `generate_part` — and
the remapper is not idempotent: a second application sends the
already-remapped keys whose re-spelled pitch names carry an accidental
(42, 46, 49, 51) to the fallback 35 and sends key 53 (pitch name F) to
46. -/
theorem claim_C10 :
    (∀ (parsed : List Note) (ch : Int) (form : List Char) (total : Nat) (g : Rng)
        (p : Part) (g2 : Rng),
      generate_part (("DrumSet").toList) ch (some parsed) form total g = (some p, g2) →
        flatNotesAndRests p = parsed.map fun n => remapNote (remapNote n)) ∧
    percLookup (midiToName 42) = 35 ∧ percLookup (midiToName 46) = 35 ∧
    percLookup (midiToName 49) = 35 ∧ percLookup (midiToName 51) = 35 ∧
    percLookup (midiToName 53) = 46 ∧
    remapNote (remapNote noteE) ≠ remapNote noteE ∧
    (remapNote noteE).midi = 42 ∧ (remapNote (remapNote noteE)).midi = 35 := by
  refine ⟨?_, by decide, by decide, by decide, by decide, by decide, by decide,
    by decide, by decide⟩
  intro parsed ch form total g p g2 hres
  rw [generate_part_drum] at hres
  by_cases hp : parsed.isEmpty = true
  · rw [if_pos hp] at hres
    exact absurd (congrArg Prod.fst hres) (by simp)
  · rw [if_neg hp] at hres
    have h1 := congrArg Prod.fst hres
    simp only [Option.some.injEq] at h1
    subst h1
    exact flat_note_map _ _ _ _

/-- Claim C10, witness: the double remap on the concrete one-note drum
parse. -/
theorem claim_C10_witness :
    flatNotesAndRests drumOutW = [noteA].map fun n => remapNote (remapNote n) :=
  claim_C10.1 [noteA] 10 (("chorus").toList) 8 rngA drumOutW rngA
    (by rw [generate_part_drum]; rfl)

end SpotifAI

